import Mathlib

/-!
# Verification of the `goimpl` stub generator

A shallow embedding, in Lean 4, of the core of `goimpl.go`: the type
descriptors, the signature comparator (`Method.Diff` / `diff`), the argument
namer (`Short` / `First` / `lowerName` / `Clean`), the method-set reconciler
(`handleExisting`), and the code assembler (the fixed `text/template` plus the
surrounding `Generate` pipeline).

Modelling conventions, stated once:

* Go strings are Lean `String`s (`[]rune` conversions become `List Char`).
  The Unicode classes used by the source (`unicode.IsLetter`,
  `unicode.ToLower`) are modelled on the ASCII range via `Char.isAlpha` /
  `Char.toLower`; the source is only ever exercised on ASCII identifiers.
* `strings.Split(s, ".")` is embedded as the structurally recursive
  `splitDot` below, `strings.Join(ds, "; ")` as `joinSC`, and
  `fmt.Sprintf("%d", n)` as `natToDec` (decimal, most significant digit
  first, `"0"` for zero) — each is extensionally the Go function.
* Go maps are embedded as association lists read through `List.lookup`
  (first match wins, so insertion is `cons`); a set-valued map
  (`map[string]struct{}`) is a `List String` read through membership.
  A `nil` map is `Option.none`; reading a `nil` map in Go yields zero
  values, hence the `getD []` views.  Go's map iteration order is
  unspecified; the one iteration in the source (`handleExisting`) touches,
  in each step, only the key of that step, so any enumeration yields the
  same final maps, and we enumerate the required methods in list order
  (Go interface method sets carry distinct, sorted names).
* `reflect.Type` is embedded as `Typ`: a named/atomic descriptor plus the
  two composite kinds the source inspects structurally (`Ptr`, `Slice`);
  all other composite kinds enter only through their canonical `String()`
  rendering and are represented as atoms carrying that string.  The results
  of the runtime capability queries `t.ConvertibleTo(errorType)` and
  `t.ConvertibleTo(ctxType)` are carried as the attributes `convErr` /
  `convCtx` of the descriptor, since the source consumes only those two
  booleans of the runtime type system.
* The external collaborators of `Generate` — `parser.ParseFile`,
  `printer.Fprint` and `imports.Process` — are oracles passed in as
  functions; the output sink (`out.Write`) is modelled as an atomic,
  always-successful write recorded in `GenOut.writes`.
-/

namespace Goimpl

/-! ## Decimal rendering (`fmt.Sprintf("%d", ·)`) -/

/-- The ASCII digit character for `d` (`0 ≤ d < 10`). -/
def decChar (d : Nat) : Char := Char.ofNat (48 + d)

/-- Little-endian decimal digits of `n`, with fuel (`fuel ≥ n` suffices). -/
def decAux : Nat → Nat → List Char
  | _, 0 => []
  | 0, _ + 1 => []
  | fuel + 1, n + 1 => decChar ((n + 1) % 10) :: decAux fuel ((n + 1) / 10)

/-- Decimal rendering of a natural number, as produced by Go's `%d` verb. -/
def natToDec (n : Nat) : String :=
  if n = 0 then "0" else String.mk (decAux n n).reverse

/-! ## `strings.Split(s, ".")`, `Clean`, `First`, `lowerName` -/

/-- `strings.Split(s, ".")` on the character list of `s`: splits at every
`'.'`, keeping empty segments, and always returns at least one segment. -/
def splitDot : List Char → List (List Char)
  | [] => [[]]
  | c :: cs =>
    if c = '.' then [] :: splitDot cs
    else
      match splitDot cs with
      | [] => [[c]]
      | p :: ps => (c :: p) :: ps

/-- `GenOpts.Clean`: keep only letters.  (Method of `GenOpts` in the source,
but it reads no field of the receiver.) -/
def CleanLetters (s : String) : String := String.mk (s.data.filter Char.isAlpha)

/-- `GenOpts.First`: the lowercase first letter of the last dot-separated
segment of `s`; `"z"` if that segment has no letter; the `"u"` branch guards
`len(parts) == 0`, which `strings.Split` never produces. -/
def First (s : String) : String :=
  match (splitDot s.data).getLast? with
  | none => "u"
  | some last =>
    match last.find? Char.isAlpha with
    | some c => String.mk [c.toLower]
    | none => "z"

/-- `GenOpts.lowerName`: the letters-only, lowercased last dot-segment of `s`
(as runes), paired with the letters-only segment before lowercasing. -/
def lowerName (s : String) : List Char × String :=
  match (splitDot s.data).getLast? with
  | none => ("u".data, "")
  | some last =>
    let clean := CleanLetters (String.mk last)
    (clean.data.map Char.toLower, clean)

/-! ## Type descriptors -/

/-- The atomic data of a `reflect.Type` that the source consumes: `PkgPath()`,
`String()`, `Name()`, and the two capability queries
`ConvertibleTo(errorType)` / `ConvertibleTo(ctxType)` (see the header). -/
structure TInfo where
  pkgPath : String
  str : String
  name : String
  convErr : Bool
  convCtx : Bool
  deriving Repr, DecidableEq

/-- A `reflect.Type`: an atom, a pointer, or a slice.  Composite kinds other
than `Ptr`/`Slice` are never destructured by the source except through
`GetName`'s default branch (their `String()`), so they are atoms here. -/
inductive Typ where
  | base (i : TInfo)
  | ptr (i : TInfo) (elem : Typ)
  | slice (i : TInfo) (elem : Typ)
  deriving Repr, DecidableEq

/-- The atomic data of a descriptor. -/
def Typ.info : Typ → TInfo
  | .base i => i
  | .ptr i _ => i
  | .slice i _ => i

/-- `t.String()`. -/
def Typ.str (t : Typ) : String := t.info.str

/-- `t.Kind() == reflect.Ptr`. -/
def Typ.isPtrT : Typ → Bool
  | .ptr _ _ => true
  | _ => false

/-- `for tt.Kind() == reflect.Ptr || tt.Kind() == reflect.Slice
{ tt = tt.Elem() }` (lines 234–237). -/
def Typ.stripPtrSlice : Typ → Typ
  | .base i => .base i
  | .ptr _ e => e.stripPtrSlice
  | .slice _ e => e.stripPtrSlice

/-- `packageAndName` (lines 333–346): `("", t.String())` for types without a
package path, else the first two dot-segments of `t.String()`. -/
def packageAndName (i : TInfo) : String × String :=
  if i.pkgPath = "" then ("", i.str)
  else
    match splitDot i.str.data with
    | [] => ("", "")
    | [p] => (String.mk p, "")
    | p :: q :: _ => (String.mk p, String.mk q)

/-! ## Method and option records -/

/-- `Arg` (lines 123–128): an input or output of a method.  The embedded
`reflect.Type` becomes the `typ` field; `a.String()` is `a.typ.str`. -/
structure Arg where
  typ : Typ
  ArgName : String
  Sep : String
  deriving Repr, DecidableEq

/-- `Method` (lines 130–136).  The `Name` of the embedded `reflect.Method`
becomes a plain field. -/
structure Method where
  Name : String
  Inputs : List Arg
  Outputs : List Arg
  Comment : String
  deriving Repr, DecidableEq

/-- A raw `reflect.Method` as handed out by `Type.Method(i)`: its name, input
types (`Type.In`) and output types (`Type.Out`).  For interface types the
receiver is not among the inputs; for concrete types it is `Ins.head`. -/
structure RMethod where
  Name : String
  Ins : List Typ
  Outs : List Typ
  deriving Repr, DecidableEq

/-- The interface type `GenOpts.Inter`: its descriptor data (for
`packageAndName`) and its method set in declaration (sorted) order. -/
structure IfaceTy where
  typ : TInfo
  methods : List RMethod
  deriving Repr, DecidableEq

/-- `GenOpts.Existing`, already taken through `reflect.TypeOf`: the dynamic
type descriptor plus its method set (each with the receiver as first input). -/
structure ExistingTy where
  et : Typ
  methods : List RMethod
  deriving Repr, DecidableEq

/-- `GenOpts` (lines 21–32).  The two Go maps are `Option`-wrapped association
structures so that `nil` (`none`) and empty (`some []`) are distinguished,
exactly as in Go. -/
structure GenOpts where
  PkgName : String
  ImplName : String
  Inter : IfaceTy
  Existing : Option ExistingTy
  NoNamedReturnValues : Bool
  MethodBlacklist : Option (List String)
  Comments : Option (List (String × String))
  NoGoImports : Bool
  Extra : List String
  deriving Repr, DecidableEq

/-- The blacklist as read in Go (reads of a `nil` map see an empty map). -/
def GenOpts.blackL (opts : GenOpts) : List String := opts.MethodBlacklist.getD []

/-- The comment map as read in Go (reads of a `nil` map see an empty map). -/
def GenOpts.commentsL (opts : GenOpts) : List (String × String) :=
  opts.Comments.getD []

/-! ## The argument namer (`Short`, lines 232–263) -/

/-- The `c`-th candidate tried by `Short`'s uniqueness loop: the base
candidate `f` itself, then `f ++ "1"`, `f ++ "2"`, … (`fmt.Sprintf("%s%d")`). -/
def nthCand (f : String) : Nat → String
  | 0 => f
  | k + 1 => f ++ natToDec (k + 1)

/-- `Short`'s unbounded uniqueness loop (lines 254–262), with fuel.  The fuel
`cur.length + 1` used below always suffices (`pickFrom_free` below), so the
out-of-fuel branch is unreachable. -/
def pickFrom (f : String) (cur : List String) : Nat → Nat → String
  | 0, k => nthCand f k
  | fuel + 1, k => if nthCand f k ∈ cur then pickFrom f cur fuel (k + 1) else nthCand f k

/-- The candidate name `f` computed by `Short` before its uniqueness loop
(lines 234–252): strip pointers/slices, take the lowercase first letter of
the local name, then apply the error/context overrides and the short-name
rule.  (Hoisted out of `Short`; it does not depend on the scope.) -/
def shortCandidate (t : Typ) : String :=
  let tt := t.stripPtrSlice
  let pn := packageAndName tt.info
  let f0 := First pn.2
  if t.info.convErr then "err"
  else if t.info.convCtx then "ctx"
  else
    let nc := lowerName pn.2
    if nc.1.length ≤ 3 ∧ String.mk nc.1 ≠ nc.2 ∧ String.mk nc.1 ≠ pn.1 then
      String.mk nc.1
    else f0

/-- `GenOpts.Short` (lines 232–263).  A method of `GenOpts` in the source,
but it reads no field of the receiver, so it is a plain function here.  The
in-place mutation of the scope map `cur` becomes returning the extended
scope. -/
def Short (t : Typ) (cur : List String) : String × List String :=
  let nm := pickFrom (shortCandidate t) cur (cur.length + 1) 0
  (nm, nm :: cur)

/-- The two argument loops of `GenOpts.Method` (lines 196–215): name each type
in order, threading the scope; the separator is `", "` except on the last. -/
def nameArgs : List Typ → List String → List Arg × List String
  | [], cur => ([], cur)
  | t :: ts, cur =>
    let p := Short t cur
    let q := nameArgs ts p.2
    (⟨t, p.1, if ts.isEmpty then "" else ", "⟩ :: q.1, q.2)

/-- `GenOpts.Method` (lines 192–217): populate a `Method`, seeding the naming
scope with the receiver's name before any parameter is named.  (A method of
`GenOpts` in the source; it reads no field of the receiver.) -/
def mkMethod (recName : String) (ft : RMethod) : Method :=
  let pin := nameArgs ft.Ins [recName]
  let pout := nameArgs ft.Outs pin.2
  { Name := ft.Name, Inputs := pin.1, Outputs := pout.1, Comment := "" }

/-- `GenOpts.Methods` (lines 176–190): the methods of `it` that are not
blacklisted, each named against the receiver `First(ImplName)` and carrying
any caller-supplied comment. -/
def GenOpts.Methods (opts : GenOpts) (ms : List RMethod) : List Method :=
  let rcv := First opts.ImplName
  ms.filterMap fun fm =>
    if fm.Name ∈ opts.blackL then none
    else some { mkMethod rcv fm with
                Comment := (opts.commentsL.lookup fm.Name).getD "" }

/-! ## The signature comparator (`Diff`, lines 146–173) -/

/-- `strings.Join(ds, "; ")`. -/
def joinSC : List String → String
  | [] => ""
  | [x] => x
  | x :: y :: xs => x ++ "; " ++ joinSC (y :: xs)

/-- `diff` (lines 161–173): compare one argument list positionally. -/
def diffL (n : String) (a b : List Arg) : String :=
  if a.length ≠ b.length then
    "number of " ++ n ++ "s: had " ++ natToDec a.length ++ ", want " ++
      natToDec b.length
  else
    joinSC ((a.zip b).enum.filterMap fun p =>
      if p.2.1.typ.str ≠ p.2.2.typ.str then
        some (n ++ "s[" ++ natToDec p.1 ++ "]: had `" ++ p.2.1.typ.str ++
          "` want `" ++ p.2.2.typ.str ++ "`")
      else none)

/-- `Method.Diff` (lines 146–159). -/
def Method.Diff (m other : Method) : String :=
  if m.Name ≠ other.Name then
    "names are different: " ++ m.Name ++ " != " ++ other.Name
  else
    let a := diffL "input" m.Inputs other.Inputs
    let b := diffL "output" m.Outputs other.Outputs
    if a ≠ "" ∧ b ≠ "" then a ++ "; " ++ b else a ++ b

/-! ## The reconciler (`handleExisting`, lines 77–121) -/

/-- `toMap` (lines 138–144) read at key `k`: Go builds `map[name]*Method`
front to back, so the last method named `k` wins. -/
def eLookup (em : List Method) (k : String) : Option Method :=
  (em.filter fun m => m.Name = k).getLast?

/-- The reconciliation loop of `handleExisting` (lines 96–112), iterating the
required methods (see the header on map iteration order): a required method
absent from the existing set is skipped; one with an empty diff is
blacklisted; one with a non-empty diff gets the diff appended to its comment,
after a separating space when a comment is already present. -/
def reconcile (eFind : String → Option Method) :
    List Method → List String → List (String × String) →
      List String × List (String × String)
  | [], blk, cmts => (blk, cmts)
  | v :: rest, blk, cmts =>
    match eFind v.Name with
    | none => reconcile eFind rest blk cmts
    | some w =>
      let d := w.Diff v
      if d = "" then reconcile eFind rest (v.Name :: blk) cmts
      else
        let c0 := (cmts.lookup v.Name).getD ""
        let c1 := if c0 ≠ "" then c0 ++ " " else c0
        reconcile eFind rest blk ((v.Name, c1 ++ d) :: cmts)

/-- Lines 87–119 of `handleExisting`, after the two configuration checks:
strip the receivers off the existing methods (`List.drop 1`; methods of a
concrete type always have the receiver as input 0, so the Go slicing never
panics), run the reconciliation loop, and overwrite the package and
implementation names from the existing type's descriptor. -/
def existingResolve (opts : GenOpts) (ex : ExistingTy) : GenOpts :=
  let em := (opts.Methods ex.methods).map fun m =>
    { m with Inputs := m.Inputs.drop 1 }
  let mtds := opts.Methods opts.Inter.methods
  let bc := reconcile (eLookup em) mtds opts.blackL opts.commentsL
  let pi :=
    match ex.et with
    | .ptr _ e => ((packageAndName e.info).1, "*" ++ (packageAndName e.info).2)
    | t => packageAndName t.info
  { opts with MethodBlacklist := some bc.1, Comments := some bc.2,
              PkgName := pi.1, ImplName := pi.2 }

/-- `GenOpts.handleExisting` (lines 77–121).  The in-place mutation of `opts`
becomes returning the updated record. -/
def GenOpts.handleExisting (opts : GenOpts) : Except String GenOpts :=
  match opts.Existing with
  | none => .ok opts
  | some ex =>
    if opts.ImplName ≠ "" then
      .error "only one of ImplName and existing should be set."
    else if opts.PkgName ≠ "" then
      .error "only one of PkgName and existing should be set."
    else
      .ok (existingResolve opts ex)

/-! ## The code assembler (`GetName`, `templateS`, lines 292–331 and 351–367) -/

/-- The qualified rendering of a named type (lines 294–302). -/
def qualName (opts : GenOpts) (i : TInfo) : String :=
  let pn := packageAndName i
  if pn.1 = "" ∨ pn.1 = opts.PkgName then i.name else pn.1 ++ "." ++ i.name

/-- `GenOpts.GetName` (lines 292–331): named types render unqualified in the
target package, pointer and slice types recurse, and every other kind falls
through to its canonical `String()` (atoms here, see the header). -/
def GenOpts.GetName (opts : GenOpts) : Typ → String
  | .base i => if i.name ≠ "" then qualName opts i else i.str
  | .ptr i e => if i.name ≠ "" then qualName opts i else "*" ++ opts.GetName e
  | .slice i e => if i.name ≠ "" then qualName opts i else "[]" ++ opts.GetName e

/-- One `{{range .Inputs}} … {{end}}` iteration of `templateS` (line 364). -/
def argChunkIn (opts : GenOpts) (a : Arg) : String :=
  " " ++ a.ArgName ++ " " ++ opts.GetName a.typ ++ " " ++ a.Sep ++ " "

/-- One `{{range .Outputs}} … {{end}}` iteration of `templateS` (line 364):
the name is emitted only when named return values are on. -/
def argChunkOut (opts : GenOpts) (a : Arg) : String :=
  " " ++ (if !opts.NoNamedReturnValues then " " ++ a.ArgName ++ " " else "") ++
    " " ++ opts.GetName a.typ ++ " " ++ a.Sep ++ " "

/-- One `{{range $R.Methods .Inter}} … {{end}}` iteration of `templateS`
(lines 362–366): optional comment line, header, and the panicking body. -/
def methodChunk (opts : GenOpts) (rcv : String) (m : Method) : String :=
  "\n" ++ (if m.Comment ≠ "" then "// " ++ m.Comment ++ " " else "") ++
    "\nfunc (" ++ rcv ++ " " ++ opts.ImplName ++ ") " ++ m.Name ++ " (" ++
    String.join (m.Inputs.map (argChunkIn opts)) ++ ") (" ++
    String.join (m.Outputs.map (argChunkOut opts)) ++
    ") \x7b\n\tpanic(errors.New(\"" ++ opts.ImplName ++ "." ++ m.Name ++
    " not implemented\")) \x7d\n"

/-- `tm.Execute(buf, opts)` for the fixed template `templateS`
(lines 351–367): the expansion of the template on `opts`, literal text
interleaved with the substituted actions. -/
def executeTemplate (opts : GenOpts) : String :=
  "\n\npackage " ++ opts.PkgName ++ "\n\nimport (\n\t\"errors\"\n\t" ++
    String.join (opts.Extra.map fun e => "\"" ++ e ++ "\"\n\t") ++
    ")\ntype " ++ CleanLetters opts.ImplName ++ " struct\x7b\x7d\n\n\n" ++
    String.join ((opts.Methods opts.Inter.methods).map
      (methodChunk opts (First opts.ImplName))) ++ "\n"

/-! ## `Generate` (lines 35–75) -/

/-- Lines 36–41 of `Generate`: replace `nil` maps by fresh empty maps,
mutating the caller's record. -/
def normalizeOpts (opts : GenOpts) : GenOpts :=
  let o1 :=
    if opts.MethodBlacklist = none then { opts with MethodBlacklist := some [] }
    else opts
  if o1.Comments = none then { o1 with Comments := some [] } else o1

/-- Lines 36–47 of `Generate`: normalize the maps, reconcile against the
existing type, and default an empty package name to the interface's. -/
def resolveOpts (opts : GenOpts) : Except String GenOpts :=
  match (normalizeOpts opts).handleExisting with
  | .error e => .error e
  | .ok o =>
    .ok (if o.PkgName = "" then
          { o with PkgName := (packageAndName o.Inter.typ).1 }
         else o)

/-- The observable outcome of one `Generate` call: the final state of the
caller's (mutated) `GenOpts`, every write that reached the sink, and the
returned error, if any. -/
structure GenOut where
  opts : GenOpts
  writes : List String
  err : Option String
  deriving Repr, DecidableEq

/-- Lines 67–74 of `Generate`: skip or run `imports.Process` (`gi`), then
write to the sink. -/
def genAfterPrint (gi : String → Except String String) (o : GenOpts)
    (printed : String) : GenOut :=
  if o.NoGoImports then ⟨o, [printed], none⟩
  else
    match gi printed with
    | .error e => ⟨o, [], some ("Error fixing imports: " ++ e)⟩
    | .ok bts => ⟨o, [bts], none⟩

/-- Lines 58–66 of `Generate`: the `printer.Config.Fprint` round trip. -/
def genAfterParse {Ast : Type} (print : Ast → Except String String)
    (gi : String → Except String String) (o : GenOpts) (ast : Ast) : GenOut :=
  match print ast with
  | .error e => ⟨o, [], some e⟩
  | .ok printed => genAfterPrint gi o printed

/-- Lines 48–57 of `Generate`: execute the template and parse it back. -/
def genResolved {Ast : Type} (parse : String → Except String Ast)
    (print : Ast → Except String String) (gi : String → Except String String)
    (o : GenOpts) : GenOut :=
  match parse (executeTemplate o) with
  | .error e => ⟨o, [], some ("Error parsing generated code: " ++ e)⟩
  | .ok ast => genAfterParse print gi o ast

/-- `Generate` (lines 35–75), parameterized by its external collaborators
(see the header): `parse` is `parser.ParseFile`, `print` is the
`printer.Config.Fprint` round trip on the parsed file, `gi` is
`imports.Process`.  The sink write is atomic and final. -/
def Generate {Ast : Type} (parse : String → Except String Ast)
    (print : Ast → Except String String)
    (gi : String → Except String String) (opts : GenOpts) : GenOut :=
  match resolveOpts opts with
  | .error e => ⟨normalizeOpts opts, [], some e⟩
  | .ok o => genResolved parse print gi o

/-! ## Specification-side definitions

`specFindings`/`specJoin`/`specDiff` transcribe the wording of the
comparator specification (one finding per length mismatch or per differing
index, findings joined with `"; "`, groups joined with `"; "` when both are
non-empty); they are compared with the source-derived `Method.Diff` in the
refinement theorem for the comparator claim.  `chosenFrom` and
`baseCandidate` name the namer behaviours the claims quantify over. -/

/-- The findings the specification prescribes for one argument list. -/
def specFindings (n : String) (a b : List Arg) : List String :=
  if a.length ≠ b.length then
    ["number of " ++ n ++ "s: had " ++ natToDec a.length ++ ", want " ++
      natToDec b.length]
  else
    (a.zip b).enum.filterMap fun p =>
      if p.2.1.typ.str ≠ p.2.2.typ.str then
        some (n ++ "s[" ++ natToDec p.1 ++ "]: had `" ++ p.2.1.typ.str ++
          "` want `" ++ p.2.2.typ.str ++ "`")
      else none

/-- The specification's joining convention for the two finding groups. -/
def specJoin (ga gb : String) : String :=
  if ga ≠ "" ∧ gb ≠ "" then ga ++ "; " ++ gb else if ga ≠ "" then ga else gb

/-- The comparator result as the specification words it. -/
def specDiff (m other : Method) : String :=
  specJoin (joinSC (specFindings "input" m.Inputs other.Inputs))
    (joinSC (specFindings "output" m.Outputs other.Outputs))

/-- `nm` is the name the suffixing rule assigns from base candidate `f` in
scope `cur`: the first free name among `f`, `f1`, `f2`, … in increasing
order. -/
def chosenFrom (f : String) (cur : List String) (nm : String) : Prop :=
  ∃ k, nm = nthCand f k ∧ nm ∉ cur ∧ ∀ j < k, nthCand f j ∈ cur

/-- The namer's base candidate for a parameter type (step 2 of the argument
namer: lowercase first letter of the stripped base type's local name). -/
def baseCandidate (t : Typ) : String :=
  First (packageAndName t.stripPtrSlice.info).2

/-! ## Concrete descriptors and options used by witnesses -/

/-- The `error` interface type (`convErr` is Go's
`ConvertibleTo(errorType)`). -/
def errTy : Typ := .base ⟨"", "error", "error", true, false⟩

/-- The `context.Context` interface type. -/
def ctxTy : Typ := .base ⟨"golang.org/x/net/context", "context.Context",
  "Context", false, true⟩

/-- A plain named type `A`. -/
def aTy : Typ := .base ⟨"", "A", "A", false, false⟩

/-- A plain named type `B`. -/
def bTy : Typ := .base ⟨"", "B", "B", false, false⟩

/-- A descriptor whose local name is empty (no package path, empty
canonical string): the boundary case of the candidate rule. -/
def emptyNameTy : Typ := .base ⟨"", "", "", false, false⟩

/-- An unnamed map type `map[rpc.Request]int`: `PkgPath()` and `Name()` are
empty, so `packageAndName` falls back to the full canonical string as the
local name — a local name that contains a dot. -/
def mapTy : Typ := .base ⟨"", "map[rpc.Request]int", "", false, false⟩

/-- `rpc.Request`. -/
def requestTy : Typ := .base ⟨"net/rpc", "rpc.Request", "Request", false, false⟩

/-- `*rpc.Request`. -/
def requestPtrTy : Typ := .ptr ⟨"", "*rpc.Request", "", false, false⟩ requestTy

/-- A required method `M(A)` (as compared by the reconciler). -/
def mWantA : Method := ⟨"M", [⟨aTy, "a", ""⟩], [], ""⟩

/-- An existing method `M(B)` (receiver already stripped). -/
def mHaveB : Method := ⟨"M", [⟨bTy, "b", ""⟩], [], ""⟩

/-- The method `M(A) error` as the generator names it for receiver `i`:
input `a A`, output `err error`. -/
def mC7 : Method := ⟨"M", [⟨aTy, "a", ""⟩], [⟨errTy, "err", ""⟩], ""⟩

/-- A one-method interface `p.I` with `M(A) error`. -/
def ifaceM : IfaceTy :=
  ⟨⟨"p", "p.I", "I", false, false⟩, [⟨"M", [aTy], [errTy]⟩]⟩

/-- The descriptor data of an existing struct type `q.S`. -/
def sInfo : TInfo := ⟨"q", "q.S", "S", false, false⟩

/-- An existing (value) type `q.S` with method `M(B) error` — note the
receiver as input 0, as `reflect` reports concrete methods. -/
def exS : ExistingTy := ⟨.base sInfo, [⟨"M", [.base sInfo, bTy], [errTy]⟩]⟩

/-- The same existing type, seen through a pointer `*q.S`. -/
def exSPtr : ExistingTy :=
  ⟨.ptr ⟨"", "*q.S", "", false, false⟩ (.base sInfo),
    [⟨"M", [.ptr ⟨"", "*q.S", "", false, false⟩ (.base sInfo), bTy], [errTy]⟩]⟩

/-- Options that illegally combine an existing type with an explicit
implementation name. -/
def optsC3 : GenOpts := ⟨"", "X", ifaceM, some exS, false, none, none, true, []⟩

/-- Options for plain generation of `ifaceM` into package `p`. -/
def optsPlain : GenOpts := ⟨"p", "Impl", ifaceM, none, false, none, none, true, []⟩

/-- Options resolving names from the pointer existing type `*q.S`. -/
def optsC9 : GenOpts := ⟨"", "", ifaceM, some exSPtr, false, none, none, true, []⟩

/-- Options whose caller pre-blacklisted `M` and pre-seeded a comment for it,
while the existing type disagrees with the interface on `M`'s signature. -/
def optsC10 : GenOpts :=
  ⟨"", "", ifaceM, some exS, false, some ["M"], some [("M", "keep")], true, []⟩

/-- A parser oracle that accepts everything (the `Ast` is the text itself). -/
def okParse : String → Except String String := fun s => .ok s

/-- A printer oracle that reproduces the parsed text. -/
def okPrint : String → Except String String := fun s => .ok s

/-- A parser oracle that always fails with message `boom`. -/
def boomParse : String → Except String Unit := fun _ => .error "boom"

/-- A printer for the unit AST of `boomParse`. -/
def unitPrint : Unit → Except String String := fun _ => .ok ""

/-! ## String and decimal lemmas -/

theorem strData_append (a b : String) : (a ++ b).data = a.data ++ b.data := rfl

theorem str_ne_empty_of_data_ne {s : String} (h : s.data ≠ []) : s ≠ "" :=
  fun hc => h (by rw [hc])

theorem append_ne_empty_left {a : String} (b : String) (h : a ≠ "") :
    a ++ b ≠ "" := by
  intro hc
  have hd := congrArg String.data hc
  rw [strData_append] at hd
  exact h (String.ext (List.append_eq_nil.mp hd).1)

theorem append_ne_empty_right (a : String) {b : String} (h : b ≠ "") :
    a ++ b ≠ "" := by
  intro hc
  have hd := congrArg String.data hc
  rw [strData_append] at hd
  exact h (String.ext (List.append_eq_nil.mp hd).2)

theorem decAux_eq_digits :
    ∀ fuel n : Nat, n ≤ fuel → decAux fuel n = (Nat.digits 10 n).map decChar := by
  intro fuel
  induction fuel with
  | zero =>
    intro n h
    have : n = 0 := by omega
    subst this
    simp [decAux]
  | succ fuel ih =>
    intro n h
    match n with
    | 0 => simp [decAux]
    | m + 1 =>
      rw [show decAux (fuel + 1) (m + 1) =
            decChar ((m + 1) % 10) :: decAux fuel ((m + 1) / 10) from rfl]
      rw [@Nat.digits_def' 10 (by norm_num) (m + 1) (Nat.succ_pos m), List.map_cons]
      have hdiv := Nat.div_lt_self (Nat.succ_pos m) (by norm_num : 1 < 10)
      rw [ih ((m + 1) / 10) (by omega)]

theorem natToDec_succ (n : Nat) :
    natToDec (n + 1) = String.mk ((Nat.digits 10 (n + 1)).map decChar).reverse := by
  rw [natToDec, if_neg (Nat.succ_ne_zero n), decAux_eq_digits (n + 1) (n + 1) le_rfl]

theorem decChar_inj_lt : ∀ a, a < 10 → ∀ b, b < 10 → decChar a = decChar b → a = b := by
  decide

theorem map_decChar_inj :
    ∀ l₁ l₂ : List Nat, (∀ d ∈ l₁, d < 10) → (∀ d ∈ l₂, d < 10) →
      l₁.map decChar = l₂.map decChar → l₁ = l₂
  | [], [], _, _, _ => rfl
  | [], _ :: _, _, _, h => by simp at h
  | _ :: _, [], _, _, h => by simp at h
  | a :: l₁, b :: l₂, h₁, h₂, h => by
    simp only [List.map_cons, List.cons.injEq] at h
    have ha := decChar_inj_lt a (h₁ a (.head _)) b (h₂ b (.head _)) h.1
    have hl := map_decChar_inj l₁ l₂ (fun d hd => h₁ d (.tail _ hd))
      (fun d hd => h₂ d (.tail _ hd)) h.2
    rw [ha, hl]

theorem natToDec_succ_inj {a b : Nat} (h : natToDec (a + 1) = natToDec (b + 1)) :
    a = b := by
  rw [natToDec_succ, natToDec_succ] at h
  have hd := congrArg String.data h
  simp only [List.reverse_inj] at hd
  have hdig := map_decChar_inj _ _
    (fun d hd' => Nat.digits_lt_base (by norm_num) hd')
    (fun d hd' => Nat.digits_lt_base (by norm_num) hd') hd
  have := Nat.digits_inj_iff.mp hdig
  omega

theorem natToDec_succ_ne_empty (n : Nat) : natToDec (n + 1) ≠ "" := by
  rw [natToDec_succ]
  apply str_ne_empty_of_data_ne
  simp [Nat.digits_ne_nil_iff_ne_zero]

/-! ## The uniqueness loop of `Short` -/

theorem nthCand_inj (f : String) : Function.Injective (nthCand f) := by
  intro a b h
  match a, b with
  | 0, 0 => rfl
  | 0, k + 1 =>
    exfalso
    have hd := congrArg String.data h
    rw [show nthCand f 0 = f from rfl,
        show nthCand f (k + 1) = f ++ natToDec (k + 1) from rfl,
        strData_append] at hd
    have h0 : f.data ++ [] = f.data ++ (natToDec (k + 1)).data := by
      rw [List.append_nil]; exact hd
    exact natToDec_succ_ne_empty k (String.ext (List.append_cancel_left h0).symm)
  | k + 1, 0 =>
    exfalso
    have hd := congrArg String.data h
    rw [show nthCand f 0 = f from rfl,
        show nthCand f (k + 1) = f ++ natToDec (k + 1) from rfl,
        strData_append] at hd
    have h0 : f.data ++ (natToDec (k + 1)).data = f.data ++ [] := by
      rw [List.append_nil]; exact hd
    exact natToDec_succ_ne_empty k (String.ext (List.append_cancel_left h0))
  | a + 1, b + 1 =>
    have hd := congrArg String.data h
    rw [show nthCand f (a + 1) = f ++ natToDec (a + 1) from rfl,
        show nthCand f (b + 1) = f ++ natToDec (b + 1) from rfl,
        strData_append, strData_append] at hd
    have : a = b := natToDec_succ_inj
      (String.ext (List.append_cancel_left hd))
    omega

theorem exists_free_cand (f : String) (cur : List String) :
    ∃ j, j ≤ cur.length ∧ nthCand f j ∉ cur := by
  by_contra hc
  push_neg at hc
  have hsub : (Finset.range (cur.length + 1)).image (nthCand f) ⊆ cur.toFinset := by
    intro s hs
    rw [Finset.mem_image] at hs
    obtain ⟨j, hj, rfl⟩ := hs
    rw [Finset.mem_range] at hj
    exact List.mem_toFinset.mpr (hc j (by omega))
  have hcard := Finset.card_le_card hsub
  rw [Finset.card_image_of_injective _ (nthCand_inj f), Finset.card_range] at hcard
  have hlen := List.toFinset_card_le cur
  omega

theorem pickFrom_spec (f : String) (cur : List String) :
    ∀ fuel k : Nat, (∃ j, k ≤ j ∧ j < k + fuel ∧ nthCand f j ∉ cur) →
      ∃ m, k ≤ m ∧ pickFrom f cur fuel k = nthCand f m ∧ nthCand f m ∉ cur ∧
        ∀ j, k ≤ j → j < m → nthCand f j ∈ cur := by
  intro fuel
  induction fuel with
  | zero =>
    intro k h
    obtain ⟨j, hj1, hj2, _⟩ := h
    omega
  | succ fuel ih =>
    intro k hex
    rw [show pickFrom f cur (fuel + 1) k =
          if nthCand f k ∈ cur then pickFrom f cur fuel (k + 1) else nthCand f k
        from rfl]
    by_cases hk : nthCand f k ∈ cur
    · rw [if_pos hk]
      obtain ⟨j, hj1, hj2, hj3⟩ := hex
      have hjk : j ≠ k := fun hc => hj3 (hc ▸ hk)
      obtain ⟨m, hm1, hm2, hm3, hm4⟩ := ih (k + 1) ⟨j, by omega, by omega, hj3⟩
      refine ⟨m, by omega, hm2, hm3, fun j' h1 h2 => ?_⟩
      by_cases hj' : j' = k
      · exact hj' ▸ hk
      · exact hm4 j' (by omega) h2
    · rw [if_neg hk]
      exact ⟨k, le_rfl, rfl, hk, fun j h1 h2 => absurd (lt_of_le_of_lt h1 h2)
        (lt_irrefl k)⟩

theorem Short_spec (t : Typ) (cur : List String) :
    chosenFrom (shortCandidate t) cur (Short t cur).1 ∧
      (Short t cur).2 = (Short t cur).1 :: cur := by
  obtain ⟨j, hj1, hj2⟩ := exists_free_cand (shortCandidate t) cur
  obtain ⟨m, _, hm2, hm3, hm4⟩ :=
    pickFrom_spec (shortCandidate t) cur (cur.length + 1) 0 ⟨j, by omega, by omega, hj2⟩
  refine ⟨⟨m, ?_, ?_, fun j' hj' => hm4 j' (by omega) hj'⟩, rfl⟩
  · exact hm2
  · rw [show (Short t cur).1 = pickFrom (shortCandidate t) cur (cur.length + 1) 0
        from rfl, hm2]
    exact hm3

theorem Short_fst_not_mem (t : Typ) (cur : List String) : (Short t cur).1 ∉ cur := by
  obtain ⟨⟨m, hm1, hm2, _⟩, _⟩ := Short_spec t cur
  exact hm2

/-! ## Scope invariants of `nameArgs` -/

theorem nameArgs_inv :
    ∀ (ts : List Typ) (cur : List String),
      (∀ s ∈ cur, s ∈ (nameArgs ts cur).2) ∧
      (∀ a ∈ (nameArgs ts cur).1, a.ArgName ∈ (nameArgs ts cur).2 ∧ a.ArgName ∉ cur) ∧
      ((nameArgs ts cur).1.map Arg.ArgName).Nodup := by
  intro ts
  induction ts with
  | nil =>
    intro cur
    exact ⟨fun s hs => hs, by simp [nameArgs], by simp [nameArgs]⟩
  | cons t ts ih =>
    intro cur
    have hsnd : (Short t cur).2 = (Short t cur).1 :: cur := (Short_spec t cur).2
    have hnm : (Short t cur).1 ∉ cur := Short_fst_not_mem t cur
    obtain ⟨ihsub, ihargs, ihnodup⟩ := ih (Short t cur).2
    have hcons : nameArgs (t :: ts) cur =
        (⟨t, (Short t cur).1, if ts.isEmpty then "" else ", "⟩ ::
          (nameArgs ts (Short t cur).2).1, (nameArgs ts (Short t cur).2).2) := rfl
    rw [hcons]
    refine ⟨?_, ?_, ?_⟩
    · intro s hs
      exact ihsub s (hsnd ▸ List.mem_cons_of_mem _ hs)
    · intro a ha
      rcases List.mem_cons.mp ha with h | h
      · subst h
        refine ⟨ihsub _ (hsnd ▸ List.mem_cons_self _ _), hnm⟩
      · obtain ⟨h1, h2⟩ := ihargs a h
        refine ⟨h1, fun hc => h2 (hsnd ▸ List.mem_cons_of_mem _ hc)⟩
    · rw [List.map_cons, List.nodup_cons]
      refine ⟨fun hc => ?_, ihnodup⟩
      obtain ⟨a, ha, haeq⟩ := List.mem_map.mp hc
      have := (ihargs a ha).2
      rw [haeq, hsnd] at this
      exact this (List.mem_cons_self _ _)

/-! ## Joining, splitting, and emptiness lemmas -/

theorem append_eq_empty_iff (a b : String) : a ++ b = "" ↔ a = "" ∧ b = "" := by
  constructor
  · intro h
    have hd := congrArg String.data h
    rw [strData_append] at hd
    obtain ⟨h1, h2⟩ := List.append_eq_nil.mp hd
    exact ⟨String.ext h1, String.ext h2⟩
  · rintro ⟨rfl, rfl⟩
    rfl

theorem joinSC_ne_empty : ∀ l : List String, (∀ x ∈ l, x ≠ "") → l ≠ [] → joinSC l ≠ ""
  | [], _, h => absurd rfl h
  | [x], h, _ => by
    rw [show joinSC [x] = x from rfl]
    exact h x (.head _)
  | x :: y :: xs, h, _ => by
    rw [show joinSC (x :: y :: xs) = x ++ "; " ++ joinSC (y :: xs) from rfl]
    exact append_ne_empty_left _ (append_ne_empty_left _ (h x (.head _)))

theorem joinSC_eq_empty_iff (l : List String) (h : ∀ x ∈ l, x ≠ "") :
    joinSC l = "" ↔ l = [] := by
  constructor
  · intro he
    by_contra hne
    exact joinSC_ne_empty l h hne he
  · intro he
    subst he
    rfl

theorem splitDot_ne_nil : ∀ l : List Char, splitDot l ≠ []
  | [], h => List.noConfusion h
  | c :: cs, h => by
    rw [show splitDot (c :: cs) = if c = '.' then [] :: splitDot cs
        else (match splitDot cs with
              | [] => [[c]]
              | p :: ps => (c :: p) :: ps) from rfl] at h
    by_cases hc : c = '.'
    · rw [if_pos hc] at h
      exact List.noConfusion h
    · rw [if_neg hc] at h
      cases hsp : splitDot cs with
      | nil => exact splitDot_ne_nil cs hsp
      | cons p ps =>
        rw [hsp] at h
        exact List.noConfusion h

theorem splitDot_no_dot : ∀ l : List Char, '.' ∉ l → splitDot l = [l]
  | [], _ => rfl
  | c :: cs, h => by
    have hc : c ≠ '.' := fun hcc => h (hcc ▸ List.mem_cons_self _ _)
    have ih := splitDot_no_dot cs fun hm => h (List.mem_cons_of_mem _ hm)
    simp only [splitDot, if_neg hc, ih]

/-! ## The comparator against its specification -/

theorem diffL_eq_spec (n : String) (a b : List Arg) :
    diffL n a b = joinSC (specFindings n a b) := by
  unfold diffL specFindings
  by_cases h : a.length ≠ b.length
  · rw [if_pos h, if_pos h]
    rfl
  · rw [if_neg h, if_neg h]

theorem specFindings_ne_empty (n : String) (a b : List Arg) :
    ∀ s ∈ specFindings n a b, s ≠ "" := by
  intro s hs
  unfold specFindings at hs
  by_cases h : a.length ≠ b.length
  · rw [if_pos h] at hs
    rw [List.mem_singleton] at hs
    subst hs
    exact append_ne_empty_left _ (append_ne_empty_left _ (append_ne_empty_left _
      (append_ne_empty_left _ (append_ne_empty_left _ (by decide)))))
  · rw [if_neg h] at hs
    obtain ⟨p, _, hpe⟩ := List.mem_filterMap.mp hs
    by_cases hne : p.2.1.typ.str ≠ p.2.2.typ.str
    · rw [if_pos hne] at hpe
      have hs' := Option.some.inj hpe
      subst hs'
      exact append_ne_empty_left _ (append_ne_empty_left _ (append_ne_empty_left _
        (append_ne_empty_left _ (append_ne_empty_left _ (append_ne_empty_left _
          (append_ne_empty_right n (by decide)))))))
    · rw [if_neg hne] at hpe
      exact absurd hpe (by simp)

/-! ## Lookup lemmas for the association-list view of Go maps -/

theorem lookup_cons_ne {k a b : String} {l : List (String × String)} (h : k ≠ a) :
    List.lookup k ((a, b) :: l) = List.lookup k l := by
  have hb : (k == a) = false := beq_eq_false_iff_ne.mpr h
  simp [List.lookup_cons, hb]

theorem lookup_cons_self {k b : String} {l : List (String × String)} :
    List.lookup k ((k, b) :: l) = some b := by
  simp [List.lookup_cons]

/-! ## Frame and monotonicity lemmas for the reconciliation loop -/

theorem reconcile_frame (eFind : String → Option Method) :
    ∀ (req : List Method) (blk : List String) (cmts : List (String × String))
      (k : String), k ∉ req.map Method.Name →
      ((k ∈ (reconcile eFind req blk cmts).1 ↔ k ∈ blk) ∧
        (reconcile eFind req blk cmts).2.lookup k = cmts.lookup k) := by
  intro req
  induction req with
  | nil =>
    intro blk cmts k _
    exact ⟨Iff.rfl, rfl⟩
  | cons v rest ih =>
    intro blk cmts k hk
    rw [List.map_cons] at hk
    have hkv : k ≠ v.Name := fun hc => hk (hc ▸ List.mem_cons_self _ _)
    have hkr : k ∉ rest.map Method.Name := fun hc => hk (List.mem_cons_of_mem _ hc)
    cases heq : eFind v.Name with
    | none =>
      simp only [reconcile, heq]
      exact ih blk cmts k hkr
    | some w =>
      simp only [reconcile, heq]
      by_cases hd : w.Diff v = ""
      · rw [if_pos hd]
        obtain ⟨h1, h2⟩ := ih (v.Name :: blk) cmts k hkr
        refine ⟨h1.trans ?_, h2⟩
        rw [List.mem_cons]
        exact ⟨fun hc => hc.resolve_left hkv, Or.inr⟩
      · rw [if_neg hd]
        obtain ⟨h1, h2⟩ := ih blk ((v.Name,
          (if ((cmts.lookup v.Name).getD "") ≠ ""
           then ((cmts.lookup v.Name).getD "") ++ " "
           else ((cmts.lookup v.Name).getD "")) ++ w.Diff v) :: cmts) k hkr
        exact ⟨h1, h2.trans (lookup_cons_ne hkv)⟩

theorem reconcile_blk_mono (eFind : String → Option Method) :
    ∀ (req : List Method) (blk : List String) (cmts : List (String × String))
      (k : String), k ∈ blk → k ∈ (reconcile eFind req blk cmts).1 := by
  intro req
  induction req with
  | nil =>
    intro blk cmts k hk
    exact hk
  | cons v rest ih =>
    intro blk cmts k hk
    cases heq : eFind v.Name with
    | none =>
      simp only [reconcile, heq]
      exact ih blk cmts k hk
    | some w =>
      simp only [reconcile, heq]
      by_cases hd : w.Diff v = ""
      · rw [if_pos hd]
        exact ih _ _ k (List.mem_cons_of_mem _ hk)
      · rw [if_neg hd]
        exact ih _ _ k hk

/-! ## Lemmas about `Methods` and the blacklist filter -/

theorem Methods_mem_name (opts : GenOpts) (ms : List RMethod) (m : Method)
    (hm : m ∈ opts.Methods ms) : m.Name ∉ opts.blackL := by
  simp only [GenOpts.Methods] at hm
  obtain ⟨fm, _, hfe⟩ := List.mem_filterMap.mp hm
  by_cases hb : fm.Name ∈ opts.blackL
  · rw [if_pos hb] at hfe
    exact absurd hfe (by simp)
  · rw [if_neg hb] at hfe
    have hme := Option.some.inj hfe
    have hname : m.Name = fm.Name := by
      rw [← hme]
      rfl
    rw [hname]
    exact hb

theorem blackL_not_mem_Methods (opts : GenOpts) (ms : List RMethod) (k : String)
    (hk : k ∈ opts.blackL) : k ∉ (opts.Methods ms).map Method.Name := by
  intro hc
  obtain ⟨m, hm, hmn⟩ := List.mem_map.mp hc
  exact Methods_mem_name opts ms m hm (hmn ▸ hk)

/-! ## Field lemmas for `normalizeOpts` -/

theorem normalize_PkgName (opts : GenOpts) :
    (normalizeOpts opts).PkgName = opts.PkgName := by
  cases hB : opts.MethodBlacklist <;> cases hC : opts.Comments <;>
    simp [normalizeOpts, hB, hC]

theorem normalize_ImplName (opts : GenOpts) :
    (normalizeOpts opts).ImplName = opts.ImplName := by
  cases hB : opts.MethodBlacklist <;> cases hC : opts.Comments <;>
    simp [normalizeOpts, hB, hC]

theorem normalize_Inter (opts : GenOpts) :
    (normalizeOpts opts).Inter = opts.Inter := by
  cases hB : opts.MethodBlacklist <;> cases hC : opts.Comments <;>
    simp [normalizeOpts, hB, hC]

theorem normalize_Existing (opts : GenOpts) :
    (normalizeOpts opts).Existing = opts.Existing := by
  cases hB : opts.MethodBlacklist <;> cases hC : opts.Comments <;>
    simp [normalizeOpts, hB, hC]

theorem normalize_NoNamed (opts : GenOpts) :
    (normalizeOpts opts).NoNamedReturnValues = opts.NoNamedReturnValues := by
  cases hB : opts.MethodBlacklist <;> cases hC : opts.Comments <;>
    simp [normalizeOpts, hB, hC]

theorem normalize_NoGoImports (opts : GenOpts) :
    (normalizeOpts opts).NoGoImports = opts.NoGoImports := by
  cases hB : opts.MethodBlacklist <;> cases hC : opts.Comments <;>
    simp [normalizeOpts, hB, hC]

theorem normalize_Extra (opts : GenOpts) :
    (normalizeOpts opts).Extra = opts.Extra := by
  cases hB : opts.MethodBlacklist <;> cases hC : opts.Comments <;>
    simp [normalizeOpts, hB, hC]

theorem normalize_Blacklist (opts : GenOpts) :
    (normalizeOpts opts).MethodBlacklist = some opts.blackL := by
  cases hB : opts.MethodBlacklist <;> cases hC : opts.Comments <;>
    simp [normalizeOpts, GenOpts.blackL, hB, hC]

theorem normalize_Comments (opts : GenOpts) :
    (normalizeOpts opts).Comments = some opts.commentsL := by
  cases hB : opts.MethodBlacklist <;> cases hC : opts.Comments <;>
    simp [normalizeOpts, GenOpts.commentsL, hB, hC]

theorem normalize_blackL (opts : GenOpts) :
    (normalizeOpts opts).blackL = opts.blackL := by
  rw [GenOpts.blackL, normalize_Blacklist]
  rfl

theorem normalize_commentsL (opts : GenOpts) :
    (normalizeOpts opts).commentsL = opts.commentsL := by
  rw [GenOpts.commentsL, normalize_Comments]
  rfl

/-! ## Branch lemmas for `handleExisting`, `resolveOpts` and `Generate` -/

theorem handleExisting_none {opts : GenOpts} (h : opts.Existing = none) :
    opts.handleExisting = .ok opts := by
  unfold GenOpts.handleExisting
  rw [h]

theorem handleExisting_conflict {opts : GenOpts} (ex : ExistingTy)
    (h : opts.Existing = some ex) (hc : opts.ImplName ≠ "" ∨ opts.PkgName ≠ "") :
    opts.handleExisting =
        .error "only one of ImplName and existing should be set." ∨
      opts.handleExisting =
        .error "only one of PkgName and existing should be set." := by
  simp only [GenOpts.handleExisting, h]
  by_cases h1 : opts.ImplName ≠ ""
  · rw [if_pos h1]
    exact Or.inl rfl
  · rw [if_neg h1]
    rw [if_pos (hc.resolve_left h1)]
    exact Or.inr rfl

theorem Generate_opts_ok {Ast : Type} (parse : String → Except String Ast)
    (print : Ast → Except String String) (gi : String → Except String String)
    (opts o : GenOpts) (h : resolveOpts opts = .ok o) :
    (Generate parse print gi opts).opts = o := by
  simp only [Generate, h]
  cases hp : parse (executeTemplate o) with
  | error e => simp [genResolved, hp]
  | ok ast =>
    simp only [genResolved, hp]
    cases hpr : print ast with
    | error e => simp [genAfterParse, hpr]
    | ok printed =>
      simp only [genAfterParse, hpr, genAfterPrint]
      by_cases hng : o.NoGoImports = true
      · rw [if_pos hng]
      · rw [if_neg hng]
        cases gi printed with
        | error e => rfl
        | ok bts => rfl

theorem Generate_opts_err {Ast : Type} (parse : String → Except String Ast)
    (print : Ast → Except String String) (gi : String → Except String String)
    (opts : GenOpts) (e : String) (h : resolveOpts opts = .error e) :
    Generate parse print gi opts = ⟨normalizeOpts opts, [], some e⟩ := by
  simp [Generate, h]

theorem Generate_err_no_writes {Ast : Type} (parse : String → Except String Ast)
    (print : Ast → Except String String) (gi : String → Except String String)
    (opts : GenOpts) :
    (Generate parse print gi opts).err.isSome →
      (Generate parse print gi opts).writes = [] := by
  cases h : resolveOpts opts with
  | error e => simp [Generate, h]
  | ok o =>
    simp only [Generate, h]
    cases hp : parse (executeTemplate o) with
    | error e => simp [genResolved, hp]
    | ok ast =>
      simp only [genResolved, hp]
      cases hpr : print ast with
      | error e => simp [genAfterParse, hpr]
      | ok printed =>
        simp only [genAfterParse, hpr, genAfterPrint]
        by_cases hng : o.NoGoImports = true
        · rw [if_pos hng]
          intro hc
          exact absurd hc (by simp)
        · rw [if_neg hng]
          cases gi printed with
          | error e =>
            intro _
            rfl
          | ok bts =>
            intro hc
            exact absurd hc (by simp)

theorem handleExisting_some_ok (opts : GenOpts) (ex : ExistingTy)
    (h : opts.Existing = some ex) (hI : opts.ImplName = "")
    (hP : opts.PkgName = "") :
    opts.handleExisting = .ok (existingResolve opts ex) := by
  simp only [GenOpts.handleExisting, h]
  rw [if_neg fun hc => hc hI, if_neg fun hc => hc hP]

theorem resolveOpts_of_ok {opts o : GenOpts}
    (h : (normalizeOpts opts).handleExisting = .ok o) :
    resolveOpts opts = .ok (if o.PkgName = ""
      then { o with PkgName := (packageAndName o.Inter.typ).1 } else o) := by
  simp only [resolveOpts, h]

theorem resolveOpts_of_err {opts : GenOpts} {e : String}
    (h : (normalizeOpts opts).handleExisting = .error e) :
    resolveOpts opts = .error e := by
  simp only [resolveOpts, h]

theorem existingResolve_frame (opts : GenOpts) (ex : ExistingTy) :
    (existingResolve opts ex).Inter = opts.Inter ∧
    (existingResolve opts ex).NoNamedReturnValues = opts.NoNamedReturnValues ∧
    (existingResolve opts ex).NoGoImports = opts.NoGoImports ∧
    (existingResolve opts ex).Extra = opts.Extra ∧
    (existingResolve opts ex).Existing = opts.Existing ∧
    (existingResolve opts ex).MethodBlacklist ≠ none ∧
    (existingResolve opts ex).Comments ≠ none := by
  simp [existingResolve]

theorem existingResolve_maps (opts : GenOpts) (ex : ExistingTy) :
    (existingResolve opts ex).blackL =
      (reconcile (eLookup ((opts.Methods ex.methods).map fun m =>
        { m with Inputs := m.Inputs.drop 1 })) (opts.Methods opts.Inter.methods)
        opts.blackL opts.commentsL).1 ∧
    (existingResolve opts ex).commentsL =
      (reconcile (eLookup ((opts.Methods ex.methods).map fun m =>
        { m with Inputs := m.Inputs.drop 1 })) (opts.Methods opts.Inter.methods)
        opts.blackL opts.commentsL).2 := by
  constructor <;> rfl

theorem existingResolve_names (opts : GenOpts) (ex : ExistingTy) :
    (∀ i e, ex.et = Typ.ptr i e →
      (existingResolve opts ex).ImplName = "*" ++ (packageAndName e.info).2 ∧
        (existingResolve opts ex).PkgName = (packageAndName e.info).1) ∧
    (ex.et.isPtrT = false →
      (existingResolve opts ex).ImplName = (packageAndName ex.et.info).2 ∧
        (existingResolve opts ex).PkgName = (packageAndName ex.et.info).1) := by
  constructor
  · intro i e he
    constructor <;> simp [existingResolve, he]
  · intro hnp
    cases het : ex.et with
    | ptr i e =>
      rw [het] at hnp
      exact absurd hnp (by simp [Typ.isPtrT])
    | base i =>
      constructor <;> simp [existingResolve, het, Typ.info]
    | slice i e =>
      constructor <;> simp [existingResolve, het, Typ.info]

theorem pkgUpdate_keep (o : GenOpts) (p : String) :
    ({ o with PkgName := p } : GenOpts).ImplName = o.ImplName ∧
    ({ o with PkgName := p } : GenOpts).Inter = o.Inter ∧
    ({ o with PkgName := p } : GenOpts).NoNamedReturnValues =
      o.NoNamedReturnValues ∧
    ({ o with PkgName := p } : GenOpts).NoGoImports = o.NoGoImports ∧
    ({ o with PkgName := p } : GenOpts).Extra = o.Extra ∧
    ({ o with PkgName := p } : GenOpts).MethodBlacklist = o.MethodBlacklist ∧
    ({ o with PkgName := p } : GenOpts).Comments = o.Comments ∧
    ({ o with PkgName := p } : GenOpts).blackL = o.blackL ∧
    ({ o with PkgName := p } : GenOpts).commentsL = o.commentsL :=
  ⟨rfl, rfl, rfl, rfl, rfl, rfl, rfl, rfl, rfl⟩

theorem pkgUpdate_Methods (o : GenOpts) (p : String) (ms : List RMethod) :
    ({ o with PkgName := p } : GenOpts).Methods ms = o.Methods ms := rfl

theorem Generate_blackL_comments {Ast : Type} (parse : String → Except String Ast)
    (print : Ast → Except String String) (gi : String → Except String String)
    (opts : GenOpts) (k : String) (hk : k ∈ opts.blackL) :
    k ∈ (Generate parse print gi opts).opts.blackL ∧
      (Generate parse print gi opts).opts.commentsL.lookup k =
        opts.commentsL.lookup k := by
  cases hE : (normalizeOpts opts).Existing with
  | none =>
    have hres := resolveOpts_of_ok (handleExisting_none hE)
    rw [Generate_opts_ok parse print gi opts _ hres]
    by_cases hpk : (normalizeOpts opts).PkgName = ""
    · rw [if_pos hpk]
      show k ∈ (normalizeOpts opts).blackL ∧
        (normalizeOpts opts).commentsL.lookup k = opts.commentsL.lookup k
      rw [normalize_blackL, normalize_commentsL]
      exact ⟨hk, rfl⟩
    · rw [if_neg hpk]
      rw [normalize_blackL, normalize_commentsL]
      exact ⟨hk, rfl⟩
  | some ex =>
    by_cases hI : (normalizeOpts opts).ImplName = ""
    · by_cases hP : (normalizeOpts opts).PkgName = ""
      · have hho := handleExisting_some_ok (normalizeOpts opts) ex hE hI hP
        have hres := resolveOpts_of_ok hho
        rw [Generate_opts_ok parse print gi opts _ hres]
        have hk' : k ∈ (normalizeOpts opts).blackL := by
          rw [normalize_blackL]
          exact hk
        have hmain : k ∈ (existingResolve (normalizeOpts opts) ex).blackL ∧
            (existingResolve (normalizeOpts opts) ex).commentsL.lookup k =
              opts.commentsL.lookup k := by
          obtain ⟨hmb, hmc⟩ := existingResolve_maps (normalizeOpts opts) ex
          rw [hmb, hmc]
          constructor
          · exact reconcile_blk_mono _ _ _ _ k hk'
          · have hnotin : k ∉ ((normalizeOpts opts).Methods
                (normalizeOpts opts).Inter.methods).map Method.Name :=
              blackL_not_mem_Methods _ _ k hk'
            have hfr := reconcile_frame
              (eLookup (((normalizeOpts opts).Methods ex.methods).map fun m =>
                { m with Inputs := m.Inputs.drop 1 }))
              ((normalizeOpts opts).Methods (normalizeOpts opts).Inter.methods)
              (normalizeOpts opts).blackL (normalizeOpts opts).commentsL k hnotin
            rw [hfr.2, normalize_commentsL]
        by_cases hpk : (existingResolve (normalizeOpts opts) ex).PkgName = ""
        · rw [if_pos hpk]
          show k ∈ (existingResolve (normalizeOpts opts) ex).blackL ∧
            (existingResolve (normalizeOpts opts) ex).commentsL.lookup k =
              opts.commentsL.lookup k
          exact hmain
        · rw [if_neg hpk]
          exact hmain
      · have hhe : ∃ e, (normalizeOpts opts).handleExisting = .error e := by
          rcases handleExisting_conflict ex hE (Or.inr hP) with h | h
          exacts [⟨_, h⟩, ⟨_, h⟩]
        obtain ⟨e, h⟩ := hhe
        rw [Generate_opts_err parse print gi opts _ (resolveOpts_of_err h)]
        show k ∈ (normalizeOpts opts).blackL ∧
          (normalizeOpts opts).commentsL.lookup k = opts.commentsL.lookup k
        rw [normalize_blackL, normalize_commentsL]
        exact ⟨hk, rfl⟩
    · have hhe : ∃ e, (normalizeOpts opts).handleExisting = .error e := by
        rcases handleExisting_conflict ex hE (Or.inl hI) with h | h
        exacts [⟨_, h⟩, ⟨_, h⟩]
      obtain ⟨e, h⟩ := hhe
      rw [Generate_opts_err parse print gi opts _ (resolveOpts_of_err h)]
      show k ∈ (normalizeOpts opts).blackL ∧
        (normalizeOpts opts).commentsL.lookup k = opts.commentsL.lookup k
      rw [normalize_blackL, normalize_commentsL]
      exact ⟨hk, rfl⟩

/-! ## The claims -/

/-- C2 (amended): for same-name methods the comparator compares the input and
output lists independently; a length mismatch yields exactly
`number of <inputs|outputs>: had <n>, want <m>` and stops comparing that
list; otherwise every index with differing canonical type strings yields
`<inputs|outputs>[<i>]: had `<have>` want `<want>`` (the quotes around the
type strings are backticks, not apostrophes — see the counterexample);
findings are joined within each list with `"; "`, the two groups are joined
with `"; "` when both are non-empty, and the result is empty exactly when
there are no findings. -/
theorem claim_C2 (m other : Method) (hname : m.Name = other.Name) :
    Method.Diff m other = specDiff m other ∧
      (Method.Diff m other = "" ↔
        specFindings "input" m.Inputs other.Inputs = [] ∧
        specFindings "output" m.Outputs other.Outputs = []) := by
  have hnn : ¬m.Name ≠ other.Name := fun hc => hc hname
  have hia : joinSC (specFindings "input" m.Inputs other.Inputs) = "" ↔
      specFindings "input" m.Inputs other.Inputs = [] :=
    joinSC_eq_empty_iff _ (specFindings_ne_empty _ _ _)
  have hob : joinSC (specFindings "output" m.Outputs other.Outputs) = "" ↔
      specFindings "output" m.Outputs other.Outputs = [] :=
    joinSC_eq_empty_iff _ (specFindings_ne_empty _ _ _)
  simp only [Method.Diff, if_neg hnn, diffL_eq_spec, specDiff, specJoin]
  set ga := joinSC (specFindings "input" m.Inputs other.Inputs) with hga
  set gb := joinSC (specFindings "output" m.Outputs other.Outputs) with hgb
  constructor
  · by_cases h1 : ga ≠ "" ∧ gb ≠ ""
    · rw [if_pos h1, if_pos h1]
    · rw [if_neg h1, if_neg h1]
      by_cases h2 : ga ≠ ""
      · rw [if_pos h2]
        have hgb0 : gb = "" := by
          by_contra hcc
          exact h1 ⟨h2, hcc⟩
        rw [hgb0]
        exact String.ext (by rw [strData_append]; exact List.append_nil _)
      · rw [if_neg h2]
        have hga0 : ga = "" := not_not.mp h2
        rw [hga0]
        exact String.ext (by rw [strData_append]; exact List.nil_append _)
  · by_cases h1 : ga ≠ "" ∧ gb ≠ ""
    · rw [if_pos h1]
      constructor
      · intro hc
        exact absurd hc (append_ne_empty_left _ (append_ne_empty_left _ h1.1))
      · rintro ⟨hfi, _⟩
        exact absurd (hia.mpr hfi) h1.1
    · rw [if_neg h1, append_eq_empty_iff, hia, hob]

/-- C2, witness: the comparator agrees with the specification's wording on
the concrete pair `M(B)` vs `M(A)`. -/
theorem claim_C2_witness :
    Method.Diff mHaveB mWantA = specDiff mHaveB mWantA ∧
      (Method.Diff mHaveB mWantA = "" ↔
        specFindings "input" mHaveB.Inputs mWantA.Inputs = [] ∧
        specFindings "output" mHaveB.Outputs mWantA.Outputs = []) :=
  claim_C2 mHaveB mWantA rfl

/-- C2, counterexample: the element finding quotes the type strings with
backticks, not with apostrophes as the claim's format string states. -/
theorem claim_C2_counterexample :
    Method.Diff mHaveB mWantA = "inputs[0]: had `B` want `A`" ∧
      Method.Diff mHaveB mWantA ≠ "inputs[0]: had \x27B\x27 want \x27A\x27" := by
  decide

/-- C4 (amended): for every parameter type, the argument-name candidate
after repeatedly stripping Pointer and Slice wrappers is computed from the
last dot-separated segment of the base type's local name (the split always
yields at least one segment): the lowercase of that segment's first
alphabetic character, and `"z"` when the segment contains no letter —
including when the name is entirely empty.  Both divergences from the
original claim are exhibited in the counterexample: the claimed `"u"`
fallback for an empty name is unreachable, and for a dotted local name the
candidate comes from the last segment, not from the whole name's first
letter. -/
theorem claim_C4 (t : Typ) :
    ∃ seg,
      (splitDot ((packageAndName t.stripPtrSlice.info).2).data).getLast? =
          some seg ∧
        baseCandidate t =
          match seg.find? Char.isAlpha with
          | some c => String.mk [c.toLower]
          | none => "z" := by
  cases hsp :
      (splitDot ((packageAndName t.stripPtrSlice.info).2).data).getLast? with
  | none =>
    exact absurd (List.getLast?_eq_none_iff.mp hsp) (splitDot_ne_nil _)
  | some seg =>
    refine ⟨seg, rfl, ?_⟩
    simp only [baseCandidate, First, hsp]

/-- C4, counterexample: the original claim fails in two ways on the code: a
descriptor whose local name is entirely empty gets candidate `"z"`, not the
claimed `"u"` (the guarded `strings.Split` outcome cannot occur); and the
unnamed map type `map[rpc.Request]int` — whose full canonical string serves
as its local name — gets candidate `"r"`, from the last dot-segment
`Request]int`, not the `"m"` the claim's
first-alphabetic-character-of-the-local-name rule prescribes. -/
theorem claim_C4_counterexample :
    (baseCandidate emptyNameTy = "z" ∧ baseCandidate emptyNameTy ≠ "u") ∧
      (baseCandidate mapTy = "r" ∧ baseCandidate mapTy ≠ "m") := by
  decide

/-- C5: a parameter whose original (unstripped) type satisfies the error
capability is named from base candidate `"err"` — the first free of
`err`, `err1`, `err2`, … in increasing order — and the winner is reserved in
the scope; a type satisfying the context capability but not the error one is
named from `"ctx"` under the same rule. -/
theorem claim_C5 (t : Typ) (cur : List String) :
    (t.info.convErr = true →
      chosenFrom "err" cur (Short t cur).1 ∧
        (Short t cur).2 = (Short t cur).1 :: cur) ∧
    (t.info.convErr = false → t.info.convCtx = true →
      chosenFrom "ctx" cur (Short t cur).1 ∧
        (Short t cur).2 = (Short t cur).1 :: cur) := by
  have hs := Short_spec t cur
  constructor
  · intro he
    have hcand : shortCandidate t = "err" := by
      simp [shortCandidate, he]
    rw [← hcand]
    exact hs
  · intro he hc
    have hcand : shortCandidate t = "ctx" := by
      simp [shortCandidate, he, hc]
    rw [← hcand]
    exact hs

/-- C5, witness: with `err` already reserved, the error-typed parameter is
assigned the next free suffixed name and reserved. -/
theorem claim_C5_witness :
    chosenFrom "err" ["err"] (Short errTy ["err"]).1 ∧
      (Short errTy ["err"]).2 = (Short errTy ["err"]).1 :: ["err"] :=
  (claim_C5 errTy ["err"]).1 rfl

/-- C6: within one method no parameter is ever assigned the receiver's name
(the scope is seeded with it before any parameter is named), and no two
parameters receive the same name. -/
theorem claim_C6 (recName : String) (ft : RMethod) :
    (∀ a ∈ (mkMethod recName ft).Inputs ++ (mkMethod recName ft).Outputs,
      a.ArgName ≠ recName) ∧
    (((mkMethod recName ft).Inputs ++ (mkMethod recName ft).Outputs).map
      Arg.ArgName).Nodup := by
  obtain ⟨hsub1, hargs1, hnd1⟩ := nameArgs_inv ft.Ins [recName]
  obtain ⟨_, hargs2, hnd2⟩ := nameArgs_inv ft.Outs (nameArgs ft.Ins [recName]).2
  have hin : (mkMethod recName ft).Inputs = (nameArgs ft.Ins [recName]).1 := rfl
  have hout : (mkMethod recName ft).Outputs =
      (nameArgs ft.Outs (nameArgs ft.Ins [recName]).2).1 := rfl
  rw [hin, hout]
  constructor
  · intro a ha
    rcases List.mem_append.mp ha with h | h
    · exact fun hc => (hargs1 a h).2 (by rw [hc]; exact List.mem_singleton.mpr rfl)
    · intro hc
      exact (hargs2 a h).2 (hc ▸ hsub1 recName (List.mem_singleton.mpr rfl))
  · rw [List.map_append, List.nodup_append]
    refine ⟨hnd1, hnd2, ?_⟩
    intro x hx1 hx2
    obtain ⟨a1, ha1, he1⟩ := List.mem_map.mp hx1
    obtain ⟨a2, ha2, he2⟩ := List.mem_map.mp hx2
    apply (hargs2 a2 ha2).2
    rw [he2, ← he1]
    exact (hargs1 a1 ha1).1

/-- C1: reconciliation against a supplied existing method set (already
receiver-stripped, as computed at lines 89–94) classifies each required
method exactly one way: absent → neither the blacklist nor the method's
comment changes; present with empty diff → the name is blacklisted and the
comment is untouched; present with non-empty diff → no blacklisting, and the
diff text is appended to the method's comment after a single separating
space when a caller-supplied comment already exists. -/
theorem claim_C1 (em : List Method) (m : Method) :
    ∀ (req : List Method) (blk : List String) (cmts : List (String × String)),
      (req.map Method.Name).Nodup → m ∈ req →
      ((eLookup em m.Name = none →
        ((m.Name ∈ (reconcile (eLookup em) req blk cmts).1 ↔ m.Name ∈ blk) ∧
          (reconcile (eLookup em) req blk cmts).2.lookup m.Name =
            cmts.lookup m.Name)) ∧
      (∀ w, eLookup em m.Name = some w → w.Diff m = "" →
        (m.Name ∈ (reconcile (eLookup em) req blk cmts).1 ∧
          (reconcile (eLookup em) req blk cmts).2.lookup m.Name =
            cmts.lookup m.Name)) ∧
      (∀ w, eLookup em m.Name = some w → w.Diff m ≠ "" →
        ((m.Name ∈ (reconcile (eLookup em) req blk cmts).1 ↔ m.Name ∈ blk) ∧
          (reconcile (eLookup em) req blk cmts).2.lookup m.Name =
            some ((if ((cmts.lookup m.Name).getD "") ≠ ""
                   then ((cmts.lookup m.Name).getD "") ++ " "
                   else ((cmts.lookup m.Name).getD "")) ++ w.Diff m)))) := by
  intro req
  induction req with
  | nil =>
    intro blk cmts _ hm
    exact absurd hm (List.not_mem_nil m)
  | cons v rest ih =>
    intro blk cmts hnodup hm
    rw [List.map_cons, List.nodup_cons] at hnodup
    obtain ⟨hvn, hnd⟩ := hnodup
    rcases List.mem_cons.mp hm with hmv | hmr
    · subst hmv
      cases heq : eLookup em m.Name with
      | none =>
        simp only [reconcile, heq]
        have hfr := reconcile_frame (eLookup em) rest blk cmts m.Name hvn
        refine ⟨fun _ => hfr, ?_, ?_⟩
        · intro w hw _
          exact Option.noConfusion hw
        · intro w hw _
          exact Option.noConfusion hw
      | some w' =>
        simp only [reconcile, heq]
        by_cases hd : w'.Diff m = ""
        · rw [if_pos hd]
          have hfr := reconcile_frame (eLookup em) rest (m.Name :: blk) cmts
            m.Name hvn
          refine ⟨?_, ?_, ?_⟩
          · intro h0
            exact Option.noConfusion h0
          · intro w hw _
            refine ⟨?_, hfr.2⟩
            exact reconcile_blk_mono _ rest _ cmts m.Name (List.mem_cons_self _ _)
          · intro w hw hdne
            have hww : w = w' := (Option.some.inj hw).symm
            rw [hww] at hdne
            exact absurd hd hdne
        · rw [if_neg hd]
          refine ⟨?_, ?_, ?_⟩
          · intro h0
            exact Option.noConfusion h0
          · intro w hw hdw
            have hww : w = w' := (Option.some.inj hw).symm
            rw [hww] at hdw
            exact absurd hdw hd
          · intro w hw hdne
            have hww : w = w' := (Option.some.inj hw).symm
            subst hww
            have hfr := reconcile_frame (eLookup em) rest blk
              ((m.Name, (if ((cmts.lookup m.Name).getD "") ≠ ""
                then ((cmts.lookup m.Name).getD "") ++ " "
                else ((cmts.lookup m.Name).getD "")) ++ w.Diff m) :: cmts)
              m.Name hvn
            refine ⟨hfr.1, ?_⟩
            rw [hfr.2, lookup_cons_self]
    · have hneq : v.Name ≠ m.Name := by
        intro hc
        exact hvn (hc ▸ List.mem_map_of_mem Method.Name hmr)
      cases heq : eLookup em v.Name with
      | none =>
        simp only [reconcile, heq]
        exact ih blk cmts hnd hmr
      | some w' =>
        simp only [reconcile, heq]
        by_cases hd : w'.Diff v = ""
        · rw [if_pos hd]
          have ih' := ih (v.Name :: blk) cmts hnd hmr
          have hmem : (m.Name ∈ v.Name :: blk) ↔ m.Name ∈ blk := by
            rw [List.mem_cons]
            exact ⟨fun h => h.resolve_left fun hc => hneq hc.symm, Or.inr⟩
          rw [hmem] at ih'
          exact ih'
        · rw [if_neg hd]
          have ih' := ih blk
            ((v.Name, (if ((cmts.lookup v.Name).getD "") ≠ ""
              then ((cmts.lookup v.Name).getD "") ++ " "
              else ((cmts.lookup v.Name).getD "")) ++ w'.Diff v) :: cmts)
            hnd hmr
          rw [lookup_cons_ne fun hc => hneq hc.symm] at ih'
          exact ih'

/-- C1, witness: reconciling a one-method set whose existing counterpart has
a different signature appends the diff after the caller's comment and does
not blacklist. -/
theorem claim_C1_witness :
    ((mWantA.Name ∈ (reconcile (eLookup [mHaveB]) [mWantA] []
        [("M", "hi")]).1) ↔ mWantA.Name ∈ ([] : List String)) ∧
      (reconcile (eLookup [mHaveB]) [mWantA] [] [("M", "hi")]).2.lookup
          mWantA.Name =
        some ((if ((([("M", "hi")] : List (String × String)).lookup
                  mWantA.Name).getD "") ≠ ""
               then ((([("M", "hi")] : List (String × String)).lookup
                  mWantA.Name).getD "") ++ " "
               else ((([("M", "hi")] : List (String × String)).lookup
                  mWantA.Name).getD "")) ++ mHaveB.Diff mWantA) :=
  (claim_C1 [mHaveB] mWantA [mWantA] [] [("M", "hi")] (by decide)
    (by decide)).2.2 mHaveB (by decide) (by decide)

/-- C3: supplying an existing-type descriptor together with an explicit
implementation name, or together with an explicit package name, makes
generation fail immediately with the configuration error; nothing reaches
the sink and no blacklist or comment entries are added. -/
theorem claim_C3 {Ast : Type} (parse : String → Except String Ast)
    (print : Ast → Except String String) (gi : String → Except String String)
    (opts : GenOpts) (ex : ExistingTy) (hex : opts.Existing = some ex)
    (hc : opts.ImplName ≠ "" ∨ opts.PkgName ≠ "") :
    ((Generate parse print gi opts).err =
        some "only one of ImplName and existing should be set." ∨
      (Generate parse print gi opts).err =
        some "only one of PkgName and existing should be set.") ∧
    (Generate parse print gi opts).writes = [] ∧
    (Generate parse print gi opts).opts.blackL = opts.blackL ∧
    (Generate parse print gi opts).opts.commentsL = opts.commentsL := by
  have hex' : (normalizeOpts opts).Existing = some ex := by
    rw [normalize_Existing, hex]
  have hc' : (normalizeOpts opts).ImplName ≠ "" ∨
      (normalizeOpts opts).PkgName ≠ "" := by
    rw [normalize_ImplName, normalize_PkgName]
    exact hc
  rcases handleExisting_conflict ex hex' hc' with h | h
  · rw [Generate_opts_err parse print gi opts _ (resolveOpts_of_err h)]
    exact ⟨Or.inl rfl, rfl, normalize_blackL opts, normalize_commentsL opts⟩
  · rw [Generate_opts_err parse print gi opts _ (resolveOpts_of_err h)]
    exact ⟨Or.inr rfl, rfl, normalize_blackL opts, normalize_commentsL opts⟩

/-- C3, witness: the concrete options combining `Existing` with
`ImplName = "X"` fail with the configuration error and write nothing. -/
theorem claim_C3_witness :
    ((Generate okParse okPrint okPrint optsC3).err =
        some "only one of ImplName and existing should be set." ∨
      (Generate okParse okPrint okPrint optsC3).err =
        some "only one of PkgName and existing should be set.") ∧
    (Generate okParse okPrint okPrint optsC3).writes = [] ∧
    (Generate okParse okPrint okPrint optsC3).opts.blackL = optsC3.blackL ∧
    (Generate okParse okPrint okPrint optsC3).opts.commentsL =
      optsC3.commentsL :=
  claim_C3 okParse okPrint okPrint optsC3 exS rfl (Or.inl (by decide))

theorem lit_split_panic :
    (") \x7b\n\tpanic(errors.New(\"" : String) =
      ") \x7b\n\t" ++ "panic(errors.New(\"" := by
  decide

/-- C7: every rendered method (the template ranges over `Methods`, which
filters out the blacklist) is outside the blacklist and its chunk ends in a
body that fails at call time with the message
`<ImplName>.<MethodName> not implemented`, naming both the implementation
type and the method; a blacklisted name never appears among the rendered
methods. -/
theorem claim_C7 (opts : GenOpts) (ms : List RMethod) (rcv : String) :
    (∀ m ∈ opts.Methods ms,
      m.Name ∉ opts.blackL ∧
      ∃ pre, methodChunk opts rcv m =
        pre ++ ("panic(errors.New(\"" ++ opts.ImplName ++ "." ++ m.Name ++
          " not implemented\")) \x7d\n")) ∧
    (∀ k ∈ opts.blackL, k ∉ (opts.Methods ms).map Method.Name) := by
  constructor
  · intro m hm
    refine ⟨Methods_mem_name opts ms m hm, ?_⟩
    refine ⟨"\n" ++ (if m.Comment ≠ "" then "// " ++ m.Comment ++ " " else "") ++
      "\nfunc (" ++ rcv ++ " " ++ opts.ImplName ++ ") " ++ m.Name ++ " (" ++
      String.join (m.Inputs.map (argChunkIn opts)) ++ ") (" ++
      String.join (m.Outputs.map (argChunkOut opts)) ++ ") \x7b\n\t", ?_⟩
    simp only [methodChunk]
    rw [lit_split_panic]
    simp only [String.append_assoc]
  · intro k hk
    exact blackL_not_mem_Methods opts ms k hk

/-- C7, witness: the concrete rendered method `M` of `optsPlain` is outside
the blacklist and its body panics with `Impl.M not implemented`. -/
theorem claim_C7_witness :
    mC7.Name ∉ optsPlain.blackL ∧
      ∃ pre, methodChunk optsPlain "i" mC7 =
        pre ++ ("panic(errors.New(\"" ++ optsPlain.ImplName ++ "." ++
          mC7.Name ++ " not implemented\")) \x7d\n") :=
  (claim_C7 optsPlain ifaceM.methods "i").1 mC7 (by decide)

/-- C8 (amended): when parsing the assembled text fails, `Generate` returns
the parse error prefixed with `Error parsing generated code: ` — the raw
assembled text itself is not part of the error (see the counterexample) —
and writes nothing; on every error path of `Generate` nothing reaches the
sink. -/
theorem claim_C8 {Ast : Type} (parse : String → Except String Ast)
    (print : Ast → Except String String) (gi : String → Except String String)
    (opts o : GenOpts) (e : String) :
    (resolveOpts opts = .ok o → parse (executeTemplate o) = .error e →
      Generate parse print gi opts =
        ⟨o, [], some ("Error parsing generated code: " ++ e)⟩) ∧
    ((Generate parse print gi opts).err.isSome →
      (Generate parse print gi opts).writes = []) := by
  constructor
  · intro hres hp
    simp [Generate, hres, genResolved, hp]
  · exact Generate_err_no_writes parse print gi opts

/-- C8, witness: a failing parser oracle makes `Generate` return the
prefixed parse error with the caller's record in its normalized state and
nothing written. -/
theorem claim_C8_witness :
    Generate boomParse unitPrint okPrint optsPlain =
      ⟨normalizeOpts optsPlain, [],
        some ("Error parsing generated code: " ++ "boom")⟩ :=
  (claim_C8 boomParse unitPrint okPrint optsPlain (normalizeOpts optsPlain)
    "boom").1 rfl rfl

/-- C8, counterexample: on a parse failure the returned error is exactly the
prefixed parse error; the raw assembled text is not contained in it, against
the claim that the error surfaces both. -/
theorem claim_C8_counterexample :
    (Generate boomParse unitPrint okPrint optsPlain).err =
        some "Error parsing generated code: boom" ∧
      (Generate boomParse unitPrint okPrint optsPlain).writes = [] ∧
      ¬((executeTemplate (normalizeOpts optsPlain)).data <:+:
          ("Error parsing generated code: boom" : String).data) := by
  decide

/-- C9: `Generate` mutates the caller's record: `nil` maps are replaced with
fresh empty maps (the final maps are never `nil`), an empty `PkgName` is
defaulted to the interface's package, and with an existing type (and the
mandatory empty explicit names) `PkgName`/`ImplName` are overwritten from the
existing type's descriptor, `ImplName` `*`-prefixed for a pointer; `Inter`,
`NoNamedReturnValues`, `NoGoImports` and `Extra` are never modified. -/
theorem claim_C9 {Ast : Type} (parse : String → Except String Ast)
    (print : Ast → Except String String) (gi : String → Except String String)
    (opts : GenOpts) :
    ((Generate parse print gi opts).opts.Inter = opts.Inter ∧
      (Generate parse print gi opts).opts.NoNamedReturnValues =
        opts.NoNamedReturnValues ∧
      (Generate parse print gi opts).opts.NoGoImports = opts.NoGoImports ∧
      (Generate parse print gi opts).opts.Extra = opts.Extra) ∧
    ((Generate parse print gi opts).opts.MethodBlacklist ≠ none ∧
      (Generate parse print gi opts).opts.Comments ≠ none) ∧
    (opts.Existing = none →
      (Generate parse print gi opts).opts.MethodBlacklist = some opts.blackL ∧
      (Generate parse print gi opts).opts.Comments = some opts.commentsL ∧
      (Generate parse print gi opts).opts.ImplName = opts.ImplName ∧
      (Generate parse print gi opts).opts.PkgName =
        (if opts.PkgName = "" then (packageAndName opts.Inter.typ).1
         else opts.PkgName)) ∧
    (∀ ex, opts.Existing = some ex → opts.ImplName = "" → opts.PkgName = "" →
      ((∀ i e, ex.et = Typ.ptr i e →
        (Generate parse print gi opts).opts.ImplName =
            "*" ++ (packageAndName e.info).2 ∧
          (Generate parse print gi opts).opts.PkgName =
            (if (packageAndName e.info).1 = ""
             then (packageAndName opts.Inter.typ).1
             else (packageAndName e.info).1)) ∧
       (ex.et.isPtrT = false →
        (Generate parse print gi opts).opts.ImplName =
            (packageAndName ex.et.info).2 ∧
          (Generate parse print gi opts).opts.PkgName =
            (if (packageAndName ex.et.info).1 = ""
             then (packageAndName opts.Inter.typ).1
             else (packageAndName ex.et.info).1)))) := by
  cases hE : opts.Existing with
  | none =>
    have hE' : (normalizeOpts opts).Existing = none := by
      rw [normalize_Existing, hE]
    have hres := resolveOpts_of_ok (handleExisting_none hE')
    rw [Generate_opts_ok parse print gi opts _ hres]
    by_cases hpk : (normalizeOpts opts).PkgName = ""
    · rw [if_pos hpk]
      have hpk' : opts.PkgName = "" := by
        rw [← normalize_PkgName]
        exact hpk
      refine ⟨⟨normalize_Inter opts, normalize_NoNamed opts,
        normalize_NoGoImports opts, normalize_Extra opts⟩,
        ⟨by simp [normalize_Blacklist], by simp [normalize_Comments]⟩, ?_, ?_⟩
      · intro _
        refine ⟨normalize_Blacklist opts, normalize_Comments opts,
          normalize_ImplName opts, ?_⟩
        rw [if_pos hpk', normalize_Inter]
      · intro ex hex _ _
        exact Option.noConfusion hex
    · rw [if_neg hpk]
      have hpk' : ¬opts.PkgName = "" := by
        rw [← normalize_PkgName]
        exact hpk
      refine ⟨⟨normalize_Inter opts, normalize_NoNamed opts,
        normalize_NoGoImports opts, normalize_Extra opts⟩,
        ⟨by simp [normalize_Blacklist], by simp [normalize_Comments]⟩, ?_, ?_⟩
      · intro _
        refine ⟨normalize_Blacklist opts, normalize_Comments opts,
          normalize_ImplName opts, ?_⟩
        rw [if_neg hpk', normalize_PkgName]
      · intro ex hex _ _
        exact Option.noConfusion hex
  | some ex0 =>
    by_cases hIP : opts.ImplName = "" ∧ opts.PkgName = ""
    · obtain ⟨hI, hP⟩ := hIP
      have hho := handleExisting_some_ok (normalizeOpts opts) ex0
        (by rw [normalize_Existing, hE])
        (by rw [normalize_ImplName]; exact hI)
        (by rw [normalize_PkgName]; exact hP)
      have hres := resolveOpts_of_ok hho
      rw [Generate_opts_ok parse print gi opts _ hres]
      obtain ⟨hf1, hf2, hf3, hf4, _, hf6, hf7⟩ :=
        existingResolve_frame (normalizeOpts opts) ex0
      obtain ⟨hnp, hnb⟩ := existingResolve_names (normalizeOpts opts) ex0
      by_cases hpk : (existingResolve (normalizeOpts opts) ex0).PkgName = ""
      · rw [if_pos hpk]
        refine ⟨⟨hf1.trans (normalize_Inter opts),
          hf2.trans (normalize_NoNamed opts),
          hf3.trans (normalize_NoGoImports opts),
          hf4.trans (normalize_Extra opts)⟩, ⟨hf6, hf7⟩, ?_, ?_⟩
        · intro h0
          exact Option.noConfusion h0
        · intro ex hex _ _
          have hxx := Option.some.inj hex
          subst hxx
          refine ⟨?_, ?_⟩
          · intro i e het
            obtain ⟨hn1, hn2⟩ := hnp i e het
            refine ⟨hn1, ?_⟩
            rw [if_pos (by rw [← hn2]; exact hpk), hf1.trans (normalize_Inter opts)]
          · intro hnptr
            obtain ⟨hn1, hn2⟩ := hnb hnptr
            refine ⟨hn1, ?_⟩
            rw [if_pos (by rw [← hn2]; exact hpk), hf1.trans (normalize_Inter opts)]
      · rw [if_neg hpk]
        refine ⟨⟨hf1.trans (normalize_Inter opts),
          hf2.trans (normalize_NoNamed opts),
          hf3.trans (normalize_NoGoImports opts),
          hf4.trans (normalize_Extra opts)⟩, ⟨hf6, hf7⟩, ?_, ?_⟩
        · intro h0
          exact Option.noConfusion h0
        · intro ex hex _ _
          have hxx := Option.some.inj hex
          subst hxx
          refine ⟨?_, ?_⟩
          · intro i e het
            obtain ⟨hn1, hn2⟩ := hnp i e het
            refine ⟨hn1, ?_⟩
            rw [if_neg (by rw [← hn2]; exact hpk)]
            exact hn2
          · intro hnptr
            obtain ⟨hn1, hn2⟩ := hnb hnptr
            refine ⟨hn1, ?_⟩
            rw [if_neg (by rw [← hn2]; exact hpk)]
            exact hn2
    · have hcon : opts.ImplName ≠ "" ∨ opts.PkgName ≠ "" := by
        by_cases h1 : opts.ImplName = ""
        · right
          intro h2
          exact hIP ⟨h1, h2⟩
        · left
          exact h1
      have hE' : (normalizeOpts opts).Existing = some ex0 := by
        rw [normalize_Existing, hE]
      have hc' : (normalizeOpts opts).ImplName ≠ "" ∨
          (normalizeOpts opts).PkgName ≠ "" := by
        rw [normalize_ImplName, normalize_PkgName]
        exact hcon
      have hhe : ∃ e, (normalizeOpts opts).handleExisting = .error e := by
        rcases handleExisting_conflict ex0 hE' hc' with h | h
        exacts [⟨_, h⟩, ⟨_, h⟩]
      obtain ⟨e, h⟩ := hhe
      rw [Generate_opts_err parse print gi opts _ (resolveOpts_of_err h)]
      refine ⟨⟨normalize_Inter opts, normalize_NoNamed opts,
        normalize_NoGoImports opts, normalize_Extra opts⟩,
        ⟨by simp [normalize_Blacklist], by simp [normalize_Comments]⟩, ?_, ?_⟩
      · intro h0
        exact Option.noConfusion h0
      · intro ex hex hI' hP'
        rcases hcon with hx | hx
        · exact absurd hI' hx
        · exact absurd hP' hx

/-- C9, witness: resolving from the pointer existing type `*q.S` overwrites
the implementation name with `*S` and the package name with `q`. -/
theorem claim_C9_witness :
    (Generate okParse okPrint okPrint optsC9).opts.ImplName =
        "*" ++ (packageAndName (Typ.base sInfo).info).2 ∧
      (Generate okParse okPrint okPrint optsC9).opts.PkgName =
        (if (packageAndName (Typ.base sInfo).info).1 = ""
         then (packageAndName optsC9.Inter.typ).1
         else (packageAndName (Typ.base sInfo).info).1) :=
  ((claim_C9 okParse okPrint okPrint optsC9).2.2.2 exSPtr rfl rfl rfl).1
    ⟨"", "*q.S", "", false, false⟩ (Typ.base sInfo) rfl

/-- C10: a method name pre-blacklisted by the caller is excluded from
reconciliation itself — its comment entry is never touched (even when the
existing set holds a same-named method with a different signature, for any
oracle and options) — and it is not among the rendered methods. -/
theorem claim_C10 {Ast : Type} (parse : String → Except String Ast)
    (print : Ast → Except String String) (gi : String → Except String String)
    (opts : GenOpts) (k : String) (hk : k ∈ opts.blackL) :
    (Generate parse print gi opts).opts.commentsL.lookup k =
        opts.commentsL.lookup k ∧
      k ∉ ((Generate parse print gi opts).opts.Methods
        opts.Inter.methods).map Method.Name := by
  obtain ⟨h1, h2⟩ := Generate_blackL_comments parse print gi opts k hk
  exact ⟨h2, blackL_not_mem_Methods _ _ k h1⟩

/-- C10, witness: with `M` pre-blacklisted and the existing type disagreeing
on `M`'s signature, the caller's comment for `M` is untouched and `M` is not
rendered. -/
theorem claim_C10_witness :
    (Generate okParse okPrint okPrint optsC10).opts.commentsL.lookup "M" =
        optsC10.commentsL.lookup "M" ∧
      "M" ∉ ((Generate okParse okPrint okPrint optsC10).opts.Methods
        optsC10.Inter.methods).map Method.Name :=
  claim_C10 okParse okPrint okPrint optsC10 "M" (by decide)

end Goimpl
